import Mathlib

/-!
# Filepath utilities of `loops` (`include/loops/util/filepath.hxx`)

A shallow embedding of the four helpers `extract_filename`, `extract_dataset`,
`is_market` and `is_binary_csr`, together with the part of `std::string` they
call (`size`, `find_last_of`, `substr`) and `size_t` arithmetic.

* A `std::string` is a list of `char`s; each `Char` of the list stands for one
  `char` of the string.  Every `std::string` has `size() <= max_size() < npos`,
  which is the hypothesis `s.length < npos` carried by the theorems that need it.
* `size_t` is an unsigned 64-bit integer: addition and subtraction wrap
  modulo `2 ^ 64`.
* `substr(pos, count)` throws `std::out_of_range` when `pos > size()`; a thrown
  exception (a fault) is the result `none`.
-/

namespace loops

/-- A `std::string`: a sequence of `char`s. -/
abbrev Str := List Char

/-- The number of values of `size_t`. -/
def SIZE_MOD : Nat := 2 ^ 64

/-- The constant `std::string::npos`, that is `static_cast<size_t>(-1)`. -/
def npos : Nat := 2 ^ 64 - 1

/-- Addition of two `size_t` values, `a + b`, wrapping around. -/
def size_add (a b : Nat) : Nat := (a + b) % 2 ^ 64

/-- Subtraction of two `size_t` values, `a - b`, wrapping around: the difference
when `b` is at most `a`, and `2 ^ 64` less the shortfall `b - a` otherwise. -/
def size_sub (a b : Nat) : Nat := if b ≤ a then a - b else 2 ^ 64 - (b - a)

/-- The call `s.size()`. -/
def size (s : Str) : Nat := s.length

/-- Scan of `find_last_of`: `i` is the index of the head of the remaining
characters, `acc` the last index seen so far that holds one of `chars`. -/
def find_last_of_from (chars : Str) : Str → Nat → Nat → Nat
  | [], _, acc => acc
  | c :: cs, i, acc => find_last_of_from chars cs (i + 1) (if c ∈ chars then i else acc)

/-- The call `s.find_last_of(chars)`: the index of the last character of `s` that
is one of the characters of `chars`, and `npos` when there is none. -/
def find_last_of (s chars : Str) : Nat := find_last_of_from chars s 0 npos

/-- The call `s.substr(pos, count)`: throws `std::out_of_range` (here `none`) when
`pos > size()`, and otherwise gives the characters `[pos, pos + rcount)` where
`rcount` is the smaller of `count` and `size() - pos`. -/
def substr (s : Str) (pos count : Nat) : Option Str :=
  if pos > size s then none
  else some ((s.drop pos).take (min count (size s - pos)))

/-- The literal `"/"`. -/
def slash : Str := ['/']

/-- The literal `"."`. -/
def dot : Str := ['.']

/-- The literal `".mtx"`. -/
def mtx : Str := ['.', 'm', 't', 'x']

/-- The literal `".mmio"`. -/
def mmio : Str := ['.', 'm', 'm', 'i', 'o']

/-- The literal `".csr"`. -/
def csr : Str := ['.', 'c', 's', 'r']

/-- The function `extract_filename(path, delim)`.  The argument `delim` is taken and
not used: the search is for `"/"`. -/
def extract_filename (path : Str) (_delim : Str) : Option Str :=
  let lastSlashIndex := find_last_of path slash
  substr path (size_add lastSlashIndex 1) npos

/-- The function `extract_dataset(filename)`. -/
def extract_dataset (filename : Str) : Option Str :=
  let lastindex := find_last_of filename dot
  substr filename 0 lastindex

/-- The function `is_market(filename)`.  The operator `||` evaluates its right
operand only when the left one is false. -/
def is_market (filename : Str) : Option Bool :=
  match substr filename (size_sub (size filename) 4) npos with
  | none => none
  | some a =>
    if a = mtx then some true
    else
      match substr filename (size_sub (size filename) 5) npos with
      | none => none
      | some b => some (decide (b = mmio))

/-- The function `is_binary_csr(filename)`. -/
def is_binary_csr (filename : Str) : Option Bool :=
  match substr filename (size_sub (size filename) 4) npos with
  | none => none
  | some a => some (decide (a = csr))

/-- Length-guarded suffix comparison, following the words of the specification:
check `length(input) >= length(suffix)` before comparing the last
`length(suffix)` characters with `suffix`. -/
def ends_with_guarded (input suffix : Str) : Bool :=
  decide (suffix.length ≤ input.length) &&
    decide (input.drop (input.length - suffix.length) = suffix)

/-- The market classification of the specification: ends with `.mtx` or with `.mmio`,
by length-guarded suffix comparison. -/
def is_market_guarded (filename : Str) : Bool :=
  ends_with_guarded filename mtx || ends_with_guarded filename mmio

/-! ## Facts about `size_t` arithmetic and the `std::string` calls -/

theorem npos_eq : npos = 18446744073709551615 := by decide

theorem size_add_npos_one : size_add npos 1 = 0 := by decide

theorem size_add_one_of_lt {a : Nat} (h : a < npos) : size_add a 1 = a + 1 := by
  unfold size_add
  rw [npos_eq] at h
  omega

/-- On `size_t` values `size_sub` is subtraction modulo `2 ^ 64`. -/
theorem size_sub_eq_mod {a b : Nat} (ha : a < 2 ^ 64) (hb : b < 2 ^ 64) :
    size_sub a b = (a + 2 ^ 64 - b) % 2 ^ 64 := by
  unfold size_sub
  split <;> omega

theorem size_sub_of_le {a k : Nat} (hk : k ≤ a) : size_sub a k = a - k := by
  unfold size_sub
  rw [if_pos hk]

theorem find_last_of_from_absent (chars : Str) :
    ∀ (s : Str) (i acc : Nat), (∀ x ∈ s, x ∉ chars) → find_last_of_from chars s i acc = acc := by
  intro s
  induction s with
  | nil => intro i acc _; rfl
  | cons c cs ih =>
    intro i acc h
    have hc : c ∉ chars := h c (List.mem_cons_self c cs)
    have hcs : ∀ x ∈ cs, x ∉ chars := fun x hx => h x (List.mem_cons_of_mem c hx)
    simp only [find_last_of_from, if_neg hc]
    exact ih (i + 1) acc hcs

theorem find_last_of_from_split (chars : Str) (c : Char) (f : Str) (hc : c ∈ chars)
    (hf : ∀ x ∈ f, x ∉ chars) :
    ∀ (d : Str) (i acc : Nat), find_last_of_from chars (d ++ c :: f) i acc = i + d.length := by
  intro d
  induction d with
  | nil =>
    intro i acc
    simp only [List.nil_append, find_last_of_from, if_pos hc, List.length_nil, Nat.add_zero]
    exact find_last_of_from_absent chars f (i + 1) i hf
  | cons x xs ih =>
    intro i acc
    rw [List.cons_append, List.length_cons]
    show find_last_of_from chars (xs ++ c :: f) (i + 1) (if x ∈ chars then i else acc) = _
    rw [ih]
    omega

/-- When no character of `s` is in `chars`, the search fails with `npos`. -/
theorem find_last_of_absent (s chars : Str) (h : ∀ x ∈ s, x ∉ chars) :
    find_last_of s chars = npos :=
  find_last_of_from_absent chars s 0 npos h

/-- The search finds the last occurrence: the index of `c` in `d ++ c :: f` when no
character of `f` is in `chars`. -/
theorem find_last_of_split (chars : Str) (c : Char) (d f : Str) (hc : c ∈ chars)
    (hf : ∀ x ∈ f, x ∉ chars) : find_last_of (d ++ c :: f) chars = d.length := by
  unfold find_last_of
  rw [find_last_of_from_split chars c f hc hf d 0 npos]
  omega

/-- Every string either holds no character of `chars`, or splits at the last one. -/
theorem split_at_last (chars : Str) (s : Str) :
    (∀ x ∈ s, x ∉ chars) ∨
      ∃ d c f, s = d ++ c :: f ∧ c ∈ chars ∧ ∀ x ∈ f, x ∉ chars := by
  induction s with
  | nil => left; intro x hx; cases hx
  | cons a t ih =>
    rcases ih with h | ⟨d, c, f, hs, hc, hf⟩
    · by_cases ha : a ∈ chars
      · right; exact ⟨[], a, t, rfl, ha, h⟩
      · left
        intro x hx
        rcases List.mem_cons.mp hx with rfl | hx
        · exact ha
        · exact h x hx
    · right
      exact ⟨a :: d, c, f, by rw [hs]; rfl, hc, hf⟩

theorem not_mem_slash_iff (f : Str) : (∀ x ∈ f, x ∉ slash) ↔ '/' ∉ f := by
  constructor
  · intro h hm; exact h '/' hm (List.mem_singleton.mpr rfl)
  · intro h x hx hxs
    rw [List.mem_singleton.mp hxs] at hx
    exact h hx

theorem not_mem_dot_iff (f : Str) : (∀ x ∈ f, x ∉ dot) ↔ '.' ∉ f := by
  constructor
  · intro h hm; exact h '.' hm (List.mem_singleton.mpr rfl)
  · intro h x hx hxs
    rw [List.mem_singleton.mp hxs] at hx
    exact h hx

/-- The call `s.substr(0, count)` with `count` at least the size gives the whole string. -/
theorem substr_zero_all (s : Str) (count : Nat) (h : s.length ≤ count) :
    substr s 0 count = some s := by
  simp only [substr, size, Nat.not_lt_zero, if_false, List.drop_zero, Nat.sub_zero,
    Nat.min_eq_right h, List.take_length]

/-- The call `s.substr(pos)` with `pos` in range gives the characters from `pos` on. -/
theorem substr_from (s : Str) (pos : Nat) (h : pos ≤ s.length) (hv : s.length < npos) :
    substr s pos npos = some (s.drop pos) := by
  have h1 : ¬ pos > size s := Nat.not_lt.mpr h
  have h2 : min npos (size s - pos) = (s.drop pos).length := by
    simp only [size, List.length_drop]
    omega
  simp only [substr, if_neg h1, h2, List.take_length]

/-- The call `s.substr(s.size() - k)` on a string of at least `k` characters gives
its last `k` characters. -/
theorem substr_last (s : Str) (k : Nat) (hk : k ≤ s.length) (hv : s.length < npos) :
    substr s (size_sub (size s) k) npos = some (s.drop (s.length - k)) := by
  have h : size_sub (size s) k = s.length - k := size_sub_of_le hk
  rw [h]
  exact substr_from s (s.length - k) (Nat.sub_le _ _) hv

/-- The call `s.substr(s.size() - k)` on a string shorter than `k` throws. -/
theorem substr_last_short (s : Str) (k : Nat) (hk : s.length < k) (hk2 : k ≤ 5) :
    substr s (size_sub (size s) k) npos = none := by
  have h : size_sub (size s) k > size s := by
    unfold size_sub size
    rw [if_neg (by omega)]
    omega
  simp only [substr, if_pos h]

theorem drop_last_eq_iff (s suffix : Str) :
    s.drop (s.length - suffix.length) = suffix ↔ suffix <:+ s := by
  constructor
  · intro heq
    rw [← heq]
    exact List.drop_suffix _ _
  · intro hs
    exact (List.suffix_iff_eq_drop.mp hs).symm

theorem ends_with_guarded_of_le (s suffix : Str) (h : suffix.length ≤ s.length) :
    ends_with_guarded s suffix = decide (s.drop (s.length - suffix.length) = suffix) := by
  unfold ends_with_guarded
  rw [decide_eq_true h, Bool.true_and]

theorem extract_filename_eq (path delim : Str) :
    extract_filename path delim = substr path (size_add (find_last_of path slash) 1) npos :=
  rfl

theorem extract_dataset_eq (filename : Str) :
    extract_dataset filename = substr filename 0 (find_last_of filename dot) :=
  rfl

/-! ## The extraction functions -/

/-- A path that holds a `/` splits at its last `/`. -/
theorem split_at_last_slash (p : Str) (hp : '/' ∈ p) :
    ∃ d f, p = d ++ slash ++ f ∧ '/' ∉ f := by
  rcases split_at_last slash p with h | ⟨d, c, f, hs, hc, hf⟩
  · exact absurd hp ((not_mem_slash_iff p).mp h)
  · have hc2 : c = '/' := List.mem_singleton.mp hc
    subst hc2
    exact ⟨d, f, by rw [hs]; simp [slash], (not_mem_slash_iff f).mp hf⟩

/-- A name that holds a `.` splits at its last `.`. -/
theorem split_at_last_dot (p : Str) (hp : '.' ∈ p) :
    ∃ n e, p = n ++ dot ++ e ∧ '.' ∉ e := by
  rcases split_at_last dot p with h | ⟨d, c, f, hs, hc, hf⟩
  · exact absurd hp ((not_mem_dot_iff p).mp h)
  · have hc2 : c = '.' := List.mem_singleton.mp hc
    subst hc2
    exact ⟨d, f, by rw [hs]; simp [dot], (not_mem_dot_iff f).mp hf⟩

/-- On `d ++ "/" ++ f` where `f` holds no `/`, `extract_filename` returns `f`. -/
theorem extract_filename_split (d f delim : Str) (hf : '/' ∉ f)
    (hv : (d ++ slash ++ f).length < npos) :
    extract_filename (d ++ slash ++ f) delim = some f := by
  have hp : d ++ slash ++ f = d ++ '/' :: f := by simp [slash]
  rw [hp] at hv ⊢
  have hlen : (d ++ '/' :: f).length = d.length + 1 + f.length := by
    simp only [List.length_append, List.length_cons]; omega
  have hfind : find_last_of (d ++ '/' :: f) slash = d.length :=
    find_last_of_split slash '/' d f (List.mem_singleton.mpr rfl) ((not_mem_slash_iff f).mpr hf)
  have hadd : size_add d.length 1 = d.length + 1 := size_add_one_of_lt (by omega)
  have hdrop : (d ++ '/' :: f).drop (d.length + 1) = f := by
    rw [List.drop_append_eq_append_drop]
    simp
  rw [extract_filename_eq, hfind, hadd, substr_from _ _ (by omega) hv, hdrop]

/-- On `n ++ "." ++ e` where `e` holds no `.`, `extract_dataset` returns `n`. -/
theorem extract_dataset_split (n e : Str) (he : '.' ∉ e) :
    extract_dataset (n ++ dot ++ e) = some n := by
  have hp : n ++ dot ++ e = n ++ '.' :: e := by simp [dot]
  rw [hp]
  have hfind : find_last_of (n ++ '.' :: e) dot = n.length :=
    find_last_of_split dot '.' n e (List.mem_singleton.mpr rfl) ((not_mem_dot_iff e).mpr he)
  have hmin : min n.length (size (n ++ '.' :: e) - 0) = n.length := by
    simp only [size, List.length_append, List.length_cons]; omega
  rw [extract_dataset_eq, hfind]
  simp only [substr, Nat.not_lt_zero, if_false, List.drop_zero, hmin]
  rw [List.take_left]

/-- C1: a path `p` that holds at least one `/` can be written `d ++ "/" ++ f` with no
`/` in `f`, and for every such writing `extract_filename` returns `f`, the substring
after the last `/` (the empty string when `p` ends with `/`). -/
theorem extract_filename_after_last_slash (p delim : Str) (hp : '/' ∈ p)
    (hv : p.length < npos) :
    (∃ d f, p = d ++ slash ++ f ∧ '/' ∉ f) ∧
      ∀ d f, p = d ++ slash ++ f → '/' ∉ f → extract_filename p delim = some f := by
  refine ⟨split_at_last_slash p hp, ?_⟩
  intro d f hs hf
  subst hs
  exact extract_filename_split d f delim hf hv

theorem extract_filename_after_last_slash_witness :
    extract_filename ['a', '/', 'b', '/', 'c', '.', 'd'] slash = some ['c', '.', 'd'] ∧
      extract_filename ['a', '/', 'b', '/'] slash = some [] :=
  ⟨(extract_filename_after_last_slash ['a', '/', 'b', '/', 'c', '.', 'd'] slash
      (by decide) (by decide)).2 ['a', '/', 'b'] ['c', '.', 'd'] (by decide) (by decide),
    (extract_filename_after_last_slash ['a', '/', 'b', '/'] slash
      (by decide) (by decide)).2 ['a', '/', 'b'] [] (by decide) (by decide)⟩

/-- C2: for a path that holds no `/` (the empty string included), the search gives
`npos`, `npos + 1` wraps around to `0`, and `extract_filename` returns the path
unchanged. -/
theorem extract_filename_no_slash (p delim : Str) (hp : '/' ∉ p) (hv : p.length < npos) :
    find_last_of p slash = npos ∧ size_add npos 1 = 0 ∧ extract_filename p delim = some p := by
  have hfind : find_last_of p slash = npos :=
    find_last_of_absent p slash ((not_mem_slash_iff p).mpr hp)
  refine ⟨hfind, size_add_npos_one, ?_⟩
  unfold extract_filename
  simp only [hfind, size_add_npos_one]
  exact substr_zero_all p npos (Nat.le_of_lt hv)

theorem extract_filename_no_slash_witness :
    extract_filename ['m', '.', 'x'] slash = some ['m', '.', 'x'] ∧
      extract_filename [] slash = some [] :=
  ⟨(extract_filename_no_slash ['m', '.', 'x'] slash (by decide) (by decide)).2.2,
    (extract_filename_no_slash [] slash (by decide) (by decide)).2.2⟩

/-- C3: a name `f` that holds at least one `.` can be written `n ++ "." ++ e` with no
`.` in `e`, and for every such writing `extract_dataset` returns `n`, the substring
before the last `.`: only the last extension is removed, and a name that starts with
its only dot gives the empty string. -/
theorem extract_dataset_before_last_dot (f : Str) (hf : '.' ∈ f) :
    (∃ n e, f = n ++ dot ++ e ∧ '.' ∉ e) ∧
      ∀ n e, f = n ++ dot ++ e → '.' ∉ e → extract_dataset f = some n := by
  refine ⟨split_at_last_dot f hf, ?_⟩
  intro n e hs he
  subst hs
  exact extract_dataset_split n e he

theorem extract_dataset_before_last_dot_witness :
    extract_dataset ['a', '.', 'b', '.', 'c'] = some ['a', '.', 'b'] ∧
      extract_dataset ['.', 'c', 's', 'r'] = some [] :=
  ⟨(extract_dataset_before_last_dot ['a', '.', 'b', '.', 'c'] (by decide)).2
      ['a', '.', 'b'] ['c'] (by decide) (by decide),
    (extract_dataset_before_last_dot ['.', 'c', 's', 'r'] (by decide)).2
      [] ['c', 's', 'r'] (by decide) (by decide)⟩

/-- C4: for a name that holds no `.` (the empty string included), `extract_dataset`
returns the name unchanged. -/
theorem extract_dataset_no_dot (f : Str) (hf : '.' ∉ f) (hv : f.length < npos) :
    extract_dataset f = some f := by
  have hfind : find_last_of f dot = npos :=
    find_last_of_absent f dot ((not_mem_dot_iff f).mpr hf)
  unfold extract_dataset
  simp only [hfind]
  exact substr_zero_all f npos (Nat.le_of_lt hv)

theorem extract_dataset_no_dot_witness :
    extract_dataset ['a', '/', 'b'] = some ['a', '/', 'b'] ∧ extract_dataset [] = some [] :=
  ⟨extract_dataset_no_dot ['a', '/', 'b'] (by decide) (by decide),
    extract_dataset_no_dot [] (by decide) (by decide)⟩

/-! ## The classification functions -/

/-- C5: on a string of at least 5 characters `is_market` returns a value and does not
fault; the value is true exactly when the string ends with `.mtx` or with `.mmio`,
and it is the value of the length-guarded suffix comparison. -/
theorem is_market_of_length_ge_five (s : Str) (hlen : 5 ≤ s.length) (hv : s.length < npos) :
    ∃ b, is_market s = some b ∧ (b = true ↔ (mtx <:+ s ∨ mmio <:+ s)) ∧
      b = is_market_guarded s := by
  have h4 := substr_last s 4 (by omega) hv
  have h5 := substr_last s 5 hlen hv
  have e4 : s.drop (s.length - 4) = mtx ↔ mtx <:+ s := drop_last_eq_iff s mtx
  have e5 : s.drop (s.length - 5) = mmio ↔ mmio <:+ s := drop_last_eq_iff s mmio
  have g4 : ends_with_guarded s mtx = decide (s.drop (s.length - 4) = mtx) :=
    ends_with_guarded_of_le s mtx (Nat.le_trans (by decide) hlen)
  have g5 : ends_with_guarded s mmio = decide (s.drop (s.length - 5) = mmio) :=
    ends_with_guarded_of_le s mmio hlen
  unfold is_market is_market_guarded
  rw [h4, h5, g4, g5]
  by_cases hm : s.drop (s.length - 4) = mtx
  · refine ⟨true, by simp only [if_pos hm], ?_, ?_⟩
    · exact ⟨fun _ => Or.inl (e4.mp hm), fun _ => rfl⟩
    · simp [hm]
  · refine ⟨decide (s.drop (s.length - 5) = mmio), by simp only [if_neg hm], ?_, ?_⟩
    · rw [decide_eq_true_iff]
      constructor
      · intro h; exact Or.inr (e5.mp h)
      · intro h
        rcases h with h | h
        · exact absurd (e4.mpr h) hm
        · exact e5.mpr h
    · simp [hm]

theorem is_market_of_length_ge_five_witness :
    (∃ b, is_market ['a', '.', 'm', 't', 'x'] = some b ∧
      (b = true ↔ (mtx <:+ ['a', '.', 'm', 't', 'x'] ∨ mmio <:+ ['a', '.', 'm', 't', 'x'])) ∧
      b = is_market_guarded ['a', '.', 'm', 't', 'x']) ∧
    is_market ['a', '.', 'm', 't', 'x'] = some true ∧
    is_market ['a', '.', 'm', 'm', 'i', 'o'] = some true ∧
    is_market ['a', '.', 't', 'x', 't'] = some false :=
  ⟨is_market_of_length_ge_five ['a', '.', 'm', 't', 'x'] (by decide) (by decide),
    by decide, by decide, by decide⟩

/-- C6: on a string of at least 4 characters `is_binary_csr` returns a value and does
not fault; the value is true exactly when the string ends with `.csr`. -/
theorem is_binary_csr_of_length_ge_four (s : Str) (hlen : 4 ≤ s.length)
    (hv : s.length < npos) :
    ∃ b, is_binary_csr s = some b ∧ (b = true ↔ csr <:+ s) := by
  have h4 := substr_last s 4 hlen hv
  have e4 : s.drop (s.length - 4) = csr ↔ csr <:+ s := drop_last_eq_iff s csr
  unfold is_binary_csr
  rw [h4]
  exact ⟨decide (s.drop (s.length - 4) = csr), rfl, by rw [decide_eq_true_iff]; exact e4⟩

theorem is_binary_csr_of_length_ge_four_witness :
    (∃ b, is_binary_csr ['g', '.', 'c', 's', 'r'] = some b ∧
      (b = true ↔ csr <:+ ['g', '.', 'c', 's', 'r'])) ∧
    is_binary_csr ['g', 'r', 'a', 'p', 'h', '.', 'c', 's', 'r'] = some true ∧
    is_binary_csr ['g', 'r', 'a', 'p', 'h', '.', 'b', 'i', 'n'] = some false :=
  ⟨is_binary_csr_of_length_ge_four ['g', '.', 'c', 's', 'r'] (by decide) (by decide),
    by decide, by decide⟩

/-- C7: `is_market` on the 3-character string `mtx` does not return false: the position
`size() - 4` wraps around to `2 ^ 64 - 1`, beyond the size, and `substr` throws. -/
theorem is_market_mtx_faults :
    size_sub (size ['m', 't', 'x']) 4 = 18446744073709551615 ∧
      is_market ['m', 't', 'x'] = none ∧ is_market ['m', 't', 'x'] ≠ some false := by
  decide

/-- C8: `is_binary_csr` on the 1-character string `c` does not return false: the
position `size() - 4` wraps around to `2 ^ 64 - 3`, beyond the size, and `substr`
throws. -/
theorem is_binary_csr_c_faults :
    size_sub (size ['c']) 4 = 18446744073709551613 ∧
      is_binary_csr ['c'] = none ∧ is_binary_csr ['c'] ≠ some false := by
  decide

/-! ## Totality and idempotence of the extraction functions -/

/-- In every string the position `find_last_of(...) + 1` is at most the size. -/
theorem filename_pos_le_size (chars s : Str) (hv : s.length < npos) :
    size_add (find_last_of s chars) 1 ≤ size s := by
  rcases split_at_last chars s with h | ⟨d, c, f, hs, hc, hf⟩
  · rw [find_last_of_absent s chars h, size_add_npos_one]
    exact Nat.zero_le _
  · subst hs
    have hlen : (d ++ c :: f).length = d.length + 1 + f.length := by
      simp only [List.length_append, List.length_cons]; omega
    rw [find_last_of_split chars c d f hc hf, size_add_one_of_lt (by omega)]
    simp only [size]
    omega

/-- C9: `extract_filename` and `extract_dataset` are total: on every string (the empty
one, one that ends with `/`, one that ends with `.`) the position given to `substr`
is at most the size of the string, and both functions return a value. -/
theorem extraction_total (p delim : Str) (hv : p.length < npos) :
    size_add (find_last_of p slash) 1 ≤ size p ∧ 0 ≤ size p ∧
      (∃ r, extract_filename p delim = some r) ∧ (∃ r, extract_dataset p = some r) := by
  have hpos := filename_pos_le_size slash p hv
  refine ⟨hpos, Nat.zero_le _, ?_, ?_⟩
  · unfold extract_filename
    exact ⟨_, substr_from p _ hpos hv⟩
  · unfold extract_dataset substr
    simp only [Nat.not_lt_zero, if_false]
    exact ⟨_, rfl⟩

theorem extraction_total_witness :
    (size_add (find_last_of ['a', '/'] slash) 1 ≤ size ['a', '/'] ∧ 0 ≤ size ['a', '/'] ∧
      (∃ r, extract_filename ['a', '/'] slash = some r) ∧
      (∃ r, extract_dataset ['a', '/'] = some r)) ∧
    extract_filename [] slash = some [] ∧ extract_dataset [] = some [] ∧
    extract_filename ['a', '/'] slash = some [] ∧ extract_dataset ['a', '.'] = some ['a'] :=
  ⟨extraction_total ['a', '/'] slash (by decide), by decide, by decide, by decide, by decide⟩

/-- What `extract_filename` returns: a string without `/`, returned unchanged by a
second call. -/
theorem extract_filename_result (p delim : Str) (hv : p.length < npos) :
    ∃ r, extract_filename p delim = some r ∧ '/' ∉ r ∧ r.length ≤ p.length := by
  rcases split_at_last slash p with h | ⟨d, c, f, hs, hc, hf⟩
  · have hp : '/' ∉ p := (not_mem_slash_iff p).mp h
    refine ⟨p, ?_, hp, Nat.le_refl _⟩
    rw [extract_filename_eq, find_last_of_absent p slash h, size_add_npos_one]
    exact substr_zero_all p npos (Nat.le_of_lt hv)
  · have hc2 : c = '/' := List.mem_singleton.mp hc
    subst hc2
    subst hs
    have hlen : (d ++ '/' :: f).length = d.length + 1 + f.length := by
      simp only [List.length_append, List.length_cons]; omega
    have hdrop : (d ++ '/' :: f).drop (d.length + 1) = f := by
      rw [List.drop_append_eq_append_drop]
      simp
    refine ⟨f, ?_, (not_mem_slash_iff f).mp hf, by omega⟩
    rw [extract_filename_eq, find_last_of_split slash '/' d f hc hf,
      size_add_one_of_lt (by omega),
      substr_from _ _ (by omega) hv, hdrop]

/-- C10: `extract_filename` is idempotent: on every string it returns a value, and
applied to that value it returns the same value. -/
theorem extract_filename_idempotent (p delim : Str) (hv : p.length < npos) :
    ∃ r, extract_filename p delim = some r ∧ extract_filename r delim = some r ∧
      (extract_filename p delim).bind (fun q => extract_filename q delim) =
        extract_filename p delim := by
  obtain ⟨r, hr, hns, hle⟩ := extract_filename_result p delim hv
  have hrv : r.length < npos := Nat.lt_of_le_of_lt hle hv
  have h2 : extract_filename r delim = some r := by
    rw [extract_filename_eq, find_last_of_absent r slash ((not_mem_slash_iff r).mpr hns),
      size_add_npos_one]
    exact substr_zero_all r npos (Nat.le_of_lt hrv)
  refine ⟨r, hr, h2, ?_⟩
  rw [hr]
  exact h2

theorem extract_filename_idempotent_witness :
    ∃ r, extract_filename ['a', '/', 'b', '/', 'c'] slash = some r ∧
      extract_filename r slash = some r ∧
      (extract_filename ['a', '/', 'b', '/', 'c'] slash).bind
          (fun q => extract_filename q slash) =
        extract_filename ['a', '/', 'b', '/', 'c'] slash :=
  extract_filename_idempotent ['a', '/', 'b', '/', 'c'] slash (by decide)

/-! ## Evaluation of the classification functions by length -/

/-- On a string shorter than 4 characters `is_binary_csr` faults. -/
theorem is_binary_csr_short (s : Str) (h : s.length < 4) : is_binary_csr s = none := by
  unfold is_binary_csr
  rw [substr_last_short s 4 h (by decide)]

/-- On a string of at least 4 characters `is_binary_csr` compares the last 4 with `.csr`. -/
theorem is_binary_csr_eval (s : Str) (h : 4 ≤ s.length) (hv : s.length < npos) :
    is_binary_csr s = some (decide (s.drop (s.length - 4) = csr)) := by
  unfold is_binary_csr
  rw [substr_last s 4 h hv]

/-- On a string shorter than 4 characters `is_market` faults. -/
theorem is_market_short (s : Str) (h : s.length < 4) : is_market s = none := by
  unfold is_market
  rw [substr_last_short s 4 h (by decide)]

/-- On a string of at least 4 characters whose last 4 are `.mtx`, `is_market` returns
true after the first comparison. -/
theorem is_market_of_mtx (s : Str) (h : 4 ≤ s.length) (hv : s.length < npos)
    (hm : s.drop (s.length - 4) = mtx) : is_market s = some true := by
  unfold is_market
  rw [substr_last s 4 h hv]
  simp only [if_pos hm]

/-- On a string of exactly 4 characters other than `.mtx`, `is_market` faults in the
second comparison. -/
theorem is_market_four_ne (s : Str) (h : s.length = 4) (hm : s ≠ mtx) : is_market s = none := by
  have hv : s.length < npos := by rw [h]; decide
  have hd : s.drop (s.length - 4) = s := by rw [h]; rfl
  unfold is_market
  rw [substr_last s 4 (Nat.le_of_eq h.symm) hv, hd, substr_last_short s 5 (by omega) (by decide)]
  simp only [if_neg hm]

/-- On a string of at least 5 characters `is_market` makes the two comparisons. -/
theorem is_market_eval (s : Str) (h : 5 ≤ s.length) (hv : s.length < npos) :
    is_market s =
      some (decide (s.drop (s.length - 4) = mtx) || decide (s.drop (s.length - 5) = mmio)) := by
  unfold is_market
  rw [substr_last s 4 (by omega) hv, substr_last s 5 h hv]
  by_cases hm : s.drop (s.length - 4) = mtx
  · simp only [if_pos hm, decide_eq_true hm, Bool.true_or]
  · simp only [if_neg hm, decide_eq_false hm, Bool.false_or]

/-- The last `k` characters of a string are the last `k` characters of each of its
suffixes of at least `k` characters. -/
theorem drop_last_of_suffix (p r : Str) (k : Nat) (hs : r <:+ p) (hk : k ≤ r.length) :
    p.drop (p.length - k) = r.drop (r.length - k) := by
  obtain ⟨t, ht⟩ := hs
  subst ht
  have h : (t ++ r).length - k = t.length + (r.length - k) := by
    rw [List.length_append]; omega
  rw [h, List.drop_append]

/-- What `extract_filename` returns: a suffix of the path without `/`. -/
theorem extract_filename_suffix (p delim : Str) (hv : p.length < npos) :
    ∃ r, extract_filename p delim = some r ∧ '/' ∉ r ∧ r <:+ p := by
  rcases split_at_last slash p with h | ⟨d, c, f, hs, hc, hf⟩
  · have hp : '/' ∉ p := (not_mem_slash_iff p).mp h
    refine ⟨p, ?_, hp, List.suffix_refl p⟩
    rw [extract_filename_eq, find_last_of_absent p slash h, size_add_npos_one]
    exact substr_zero_all p npos (Nat.le_of_lt hv)
  · have hc2 : c = '/' := List.mem_singleton.mp hc
    subst hc2
    have hp : p = d ++ slash ++ f := by rw [hs]; simp [slash]
    subst hp
    exact ⟨f, extract_filename_split d f delim ((not_mem_slash_iff f).mp hf) hv,
      (not_mem_slash_iff f).mp hf, List.suffix_append _ _⟩

/-! ## The result of `extract_filename`, and its unused argument -/

/-- C11: on every path `extract_filename` returns a string that holds no `/` and is a
suffix of the path. -/
theorem extract_filename_no_slash_suffix (p delim : Str) (hv : p.length < npos) :
    ∃ r, extract_filename p delim = some r ∧ '/' ∉ r ∧ r <:+ p :=
  extract_filename_suffix p delim hv

theorem extract_filename_no_slash_suffix_witness :
    ∃ r, extract_filename ['x', '/', 'y', '.', 'z'] slash = some r ∧ '/' ∉ r ∧
      r <:+ ['x', '/', 'y', '.', 'z'] :=
  extract_filename_no_slash_suffix ['x', '/', 'y', '.', 'z'] slash (by decide)

/-- C12: the argument `delim` of `extract_filename` has no effect: two calls on the same
path with any two delimiters give the same result, and the split is made at `/`: with
the delimiter `\` the path `a\b/c` gives `c`, not `b/c`. -/
theorem extract_filename_delim_ignored :
    (∀ p d1 d2 : Str, extract_filename p d1 = extract_filename p d2) ∧
      extract_filename ['a', '\\', 'b', '/', 'c'] ['\\'] = some ['c'] ∧
      extract_filename ['a', '\\', 'b', '/', 'c'] ['\\'] ≠ some ['b', '/', 'c'] :=
  ⟨fun _ _ _ => rfl, by decide, by decide⟩

/-! ## The loader pipelines -/

/-- C13: for a directory `d` and a name `n` that holds no `/` (whether or not it holds
a `.`), on the path `d ++ "/" ++ n ++ ".csr"` the function `extract_filename` returns
`n ++ ".csr"`, on which `is_binary_csr` returns true and `extract_dataset` returns `n`. -/
theorem csr_pipeline (d n delim : Str) (hn : '/' ∉ n)
    (hv : (d ++ slash ++ n ++ csr).length < npos) :
    extract_filename (d ++ slash ++ n ++ csr) delim = some (n ++ csr) ∧
      is_binary_csr (n ++ csr) = some true ∧
      extract_dataset (n ++ csr) = some n := by
  have hns : '/' ∉ n ++ csr := by
    intro h
    rcases List.mem_append.mp h with h | h
    · exact hn h
    · revert h; decide
  have hlen : (d ++ slash ++ n ++ csr).length = d.length + 1 + n.length + 4 := by
    simp only [List.length_append, slash, csr, List.length_cons, List.length_nil]
  have hv2 : (n ++ csr).length < npos := by
    rw [hlen] at hv
    simp only [List.length_append, csr, List.length_cons, List.length_nil]
    omega
  have h4 : 4 ≤ (n ++ csr).length := by
    simp only [List.length_append, csr, List.length_cons, List.length_nil]
    omega
  have hdrop : (n ++ csr).drop ((n ++ csr).length - 4) = csr := by
    have : (n ++ csr).length - 4 = n.length := by
      simp only [List.length_append, csr, List.length_cons, List.length_nil]
      omega
    rw [this, List.drop_left]
  refine ⟨?_, ?_, ?_⟩
  · rw [List.append_assoc] at hv ⊢
    exact extract_filename_split d (n ++ csr) delim hns hv
  · rw [is_binary_csr_eval (n ++ csr) h4 hv2, decide_eq_true hdrop]
  · have hsplit : n ++ csr = n ++ dot ++ ['c', 's', 'r'] := by simp [csr, dot]
    rw [hsplit]
    exact extract_dataset_split n ['c', 's', 'r'] (by decide)

theorem csr_pipeline_witness :
    extract_filename (['/', 'd', 'a', 't', 'a', '/', 's', 'e', 't', 's'] ++ slash ++
        ['g', 'r', 'a', 'p', 'h'] ++ csr) slash = some (['g', 'r', 'a', 'p', 'h'] ++ csr) ∧
      is_binary_csr (['g', 'r', 'a', 'p', 'h'] ++ csr) = some true ∧
      extract_dataset (['g', 'r', 'a', 'p', 'h'] ++ csr) = some ['g', 'r', 'a', 'p', 'h'] :=
  csr_pipeline ['/', 'd', 'a', 't', 'a', '/', 's', 'e', 't', 's'] ['g', 'r', 'a', 'p', 'h'] slash
    (by decide) (by decide)

/-- C14: for a name `n` that holds no `/` (the empty name included), on `n ++ ".mtx"`
the function `extract_filename` returns its argument unchanged, on which `is_market`
returns true and does not fault. -/
theorem mtx_pipeline (n delim : Str) (hn : '/' ∉ n) (hv : (n ++ mtx).length < npos) :
    extract_filename (n ++ mtx) delim = some (n ++ mtx) ∧
      is_market (n ++ mtx) = some true ∧
      (extract_filename (n ++ mtx) delim).bind is_market = some true := by
  have hns : '/' ∉ n ++ mtx := by
    intro h
    rcases List.mem_append.mp h with h | h
    · exact hn h
    · revert h; decide
  have h4 : 4 ≤ (n ++ mtx).length := by
    simp only [List.length_append, mtx, List.length_cons, List.length_nil]
    omega
  have hdrop : (n ++ mtx).drop ((n ++ mtx).length - 4) = mtx := by
    have : (n ++ mtx).length - 4 = n.length := by
      simp only [List.length_append, mtx, List.length_cons, List.length_nil]
      omega
    rw [this, List.drop_left]
  have hf : extract_filename (n ++ mtx) delim = some (n ++ mtx) := by
    rw [extract_filename_eq, find_last_of_absent (n ++ mtx) slash ((not_mem_slash_iff _).mpr hns),
      size_add_npos_one]
    exact substr_zero_all (n ++ mtx) npos (Nat.le_of_lt hv)
  have hm : is_market (n ++ mtx) = some true := is_market_of_mtx (n ++ mtx) h4 hv hdrop
  refine ⟨hf, hm, ?_⟩
  rw [hf]
  exact hm

theorem mtx_pipeline_witness :
    (extract_filename (['m', 'a', 't', 'r', 'i', 'x'] ++ mtx) slash =
        some (['m', 'a', 't', 'r', 'i', 'x'] ++ mtx) ∧
      is_market (['m', 'a', 't', 'r', 'i', 'x'] ++ mtx) = some true ∧
      (extract_filename (['m', 'a', 't', 'r', 'i', 'x'] ++ mtx) slash).bind is_market =
        some true) ∧
    is_market ([] ++ mtx) = some true :=
  ⟨mtx_pipeline ['m', 'a', 't', 'r', 'i', 'x'] slash (by decide) (by decide),
    (mtx_pipeline [] slash (by decide) (by decide)).2.1⟩

/-! ## The fault conditions of the classification functions -/

/-- C15: `is_binary_csr` faults exactly on the strings shorter than 4 characters, which
are the strings on which the position `size() - 4` wraps around beyond the size. -/
theorem is_binary_csr_faults_iff (s : Str) (hv : s.length < npos) :
    (is_binary_csr s = none ↔ s.length < 4) ∧
      (size_sub (size s) 4 > size s ↔ s.length < 4) := by
  constructor
  · constructor
    · intro h
      by_contra hlen
      rw [is_binary_csr_eval s (by omega) hv] at h
      cases h
    · exact is_binary_csr_short s
  · unfold size_sub size
    constructor
    · intro h
      by_contra hlen
      rw [if_pos (by omega)] at h
      omega
    · intro h
      rw [if_neg (by omega)]
      omega

theorem is_binary_csr_faults_iff_witness :
    ((is_binary_csr ['c', 's', 'r'] = none ↔ ['c', 's', 'r'].length < 4) ∧
      (size_sub (size ['c', 's', 'r']) 4 > size ['c', 's', 'r'] ↔ ['c', 's', 'r'].length < 4)) ∧
    is_binary_csr ['c', 's', 'r'] = none ∧ is_binary_csr ['a', 'b', 'c', 'd'] = some false :=
  ⟨is_binary_csr_faults_iff ['c', 's', 'r'] (by decide), by decide, by decide⟩

/-- C16, as stated, fails: the string `.mtx` is shorter than 5 characters and `is_market`
returns true on it. -/
theorem is_market_dot_mtx_returns :
    size mtx < 5 ∧ is_market mtx = some true ∧ is_market mtx ≠ none := by
  decide

/-- C16, amended: on every string shorter than 5 characters other than `.mtx`,
`is_market` faults. -/
theorem is_market_faults_below_five (s : Str) (h : s.length < 5) (hm : s ≠ mtx) :
    is_market s = none := by
  by_cases h4 : s.length < 4
  · exact is_market_short s h4
  · exact is_market_four_ne s (by omega) hm

theorem is_market_faults_below_five_witness :
    is_market ['a', 'm', 't', 'x'] = none ∧ is_market [] = none :=
  ⟨is_market_faults_below_five ['a', 'm', 't', 'x'] (by decide) (by decide),
    is_market_faults_below_five [] (by decide) (by decide)⟩

/-- C17: `is_market` faults exactly on the strings shorter than 4 characters and on the
strings of 4 characters other than `.mtx`; on `.mtx` it returns true, the second
comparison, whose position is out of range there, not being evaluated. -/
theorem is_market_faults_iff (s : Str) (hv : s.length < npos) :
    (is_market s = none ↔ (s.length < 4 ∨ (s.length = 4 ∧ s ≠ mtx))) ∧
      is_market mtx = some true ∧ substr mtx (size_sub (size mtx) 5) npos = none := by
  refine ⟨⟨?_, ?_⟩, by decide, by decide⟩
  · intro h
    by_cases h4 : s.length < 4
    · exact Or.inl h4
    · right
      by_cases h5 : s.length = 4
      · refine ⟨h5, ?_⟩
        intro hs
        rw [hs] at h
        revert h
        decide
      · rw [is_market_eval s (by omega) hv] at h
        cases h
  · intro h
    rcases h with h | ⟨h, hm⟩
    · exact is_market_short s h
    · exact is_market_four_ne s h hm

theorem is_market_faults_iff_witness :
    (is_market ['a', 'm', 't', 'x'] = none ↔
      (['a', 'm', 't', 'x'].length < 4 ∨
        (['a', 'm', 't', 'x'].length = 4 ∧ ['a', 'm', 't', 'x'] ≠ mtx))) ∧
      is_market mtx = some true ∧ substr mtx (size_sub (size mtx) 5) npos = none :=
  is_market_faults_iff ['a', 'm', 't', 'x'] (by decide)

/-! ## Relations between the functions -/

/-- C18: the two classifications exclude each other: on no string do `is_market` and
`is_binary_csr` both return true. -/
theorem not_market_and_binary_csr (s : Str) (hv : s.length < npos) :
    ¬ (is_market s = some true ∧ is_binary_csr s = some true) := by
  rintro ⟨hm, hc⟩
  by_cases h4 : s.length < 4
  · rw [is_market_short s h4] at hm
    cases hm
  · have hcsr : s.drop (s.length - 4) = csr := by
      rw [is_binary_csr_eval s (by omega) hv] at hc
      exact of_decide_eq_true (Option.some.inj hc)
    by_cases h5 : s.length = 4
    · have hs : s = csr := by
        rw [h5] at hcsr
        exact hcsr
      rw [hs] at hm
      revert hm
      decide
    · rw [is_market_eval s (by omega) hv] at hm
      have hb := Option.some.inj hm
      rw [hcsr] at hb
      have hmm : s.drop (s.length - 5) = mmio := by
        have hne : decide (csr = mtx) = false := by decide
        rw [hne, Bool.false_or] at hb
        exact of_decide_eq_true hb
      have hstep : s.drop (s.length - 4) = (s.drop (s.length - 5)).drop 1 := by
        rw [List.drop_drop]
        congr 1
        omega
      rw [hcsr, hmm] at hstep
      revert hstep
      decide

theorem not_market_and_binary_csr_witness :
    ¬ (is_market ['a', '.', 'c', 's', 'r'] = some true ∧
      is_binary_csr ['a', '.', 'c', 's', 'r'] = some true) :=
  not_market_and_binary_csr ['a', '.', 'c', 's', 'r'] (by decide)

/-- On a path without `/`, `extract_filename` returns the path. -/
theorem extract_filename_of_no_slash (p delim : Str) (hp : '/' ∉ p) (hv : p.length < npos) :
    extract_filename p delim = some p := by
  rw [extract_filename_eq, find_last_of_absent p slash ((not_mem_slash_iff p).mpr hp),
    size_add_npos_one]
  exact substr_zero_all p npos (Nat.le_of_lt hv)

/-- The two cases of `extract_filename`: a path without `/`, returned whole, and a path
split at its last `/`. -/
theorem extract_filename_cases (p delim : Str) (hv : p.length < npos) :
    ('/' ∉ p ∧ extract_filename p delim = some p) ∨
      ∃ d f, p = d ++ slash ++ f ∧ '/' ∉ f ∧ extract_filename p delim = some f := by
  by_cases hp : '/' ∈ p
  · right
    obtain ⟨d, f, hs, hf⟩ := split_at_last_slash p hp
    subst hs
    exact ⟨d, f, rfl, hf, extract_filename_split d f delim hf hv⟩
  · left
    exact ⟨hp, extract_filename_of_no_slash p delim hp hv⟩

/-- C19: stripping the directory does not change the classification: when
`extract_filename` returns a name of at least 5 characters, `is_market` returns the same
value on the path and on the name, and so does `is_binary_csr`, with no fault. -/
theorem classification_of_filename (p f delim : Str) (hf : extract_filename p delim = some f)
    (h5 : 5 ≤ f.length) (hv : p.length < npos) :
    ∃ b c, is_market p = some b ∧ is_market f = some b ∧
      is_binary_csr p = some c ∧ is_binary_csr f = some c := by
  obtain ⟨r, hr, _, hsuf⟩ := extract_filename_suffix p delim hv
  have hrf : r = f := Option.some.inj (hr.symm.trans hf)
  subst hrf
  have hle : r.length ≤ p.length := hsuf.length_le
  have hrv : r.length < npos := Nat.lt_of_le_of_lt hle hv
  have d4 := drop_last_of_suffix p r 4 hsuf (by omega)
  have d5 := drop_last_of_suffix p r 5 hsuf h5
  refine ⟨_, _, is_market_eval p (by omega) hv, ?_, is_binary_csr_eval p (by omega) hv, ?_⟩
  · rw [is_market_eval r h5 hrv, d4, d5]
  · rw [is_binary_csr_eval r (by omega) hrv, d4]

theorem classification_of_filename_witness :
    ∃ b c, is_market ['d', '/', 'a', '.', 'm', 't', 'x'] = some b ∧
      is_market ['a', '.', 'm', 't', 'x'] = some b ∧
      is_binary_csr ['d', '/', 'a', '.', 'm', 't', 'x'] = some c ∧
      is_binary_csr ['a', '.', 'm', 't', 'x'] = some c :=
  classification_of_filename ['d', '/', 'a', '.', 'm', 't', 'x'] ['a', '.', 'm', 't', 'x'] slash
    (by decide) (by decide) (by decide)

/-- C20: when the name returned by `extract_filename` holds a `.`, the two orders of
`extract_dataset` and `extract_filename` return the same value; on the path `a.b/c`,
whose only `.` is in the directory, they return `c` and `a`. -/
theorem dataset_filename_commute :
    (∀ p f delim : Str, extract_filename p delim = some f → '.' ∈ f → p.length < npos →
      ∃ n q, extract_dataset f = some n ∧ extract_dataset p = some q ∧
        extract_filename q delim = some n ∧
        (extract_filename p delim).bind extract_dataset =
          (extract_dataset p).bind (fun x => extract_filename x delim)) ∧
    ((extract_filename ['a', '.', 'b', '/', 'c'] slash).bind extract_dataset = some ['c'] ∧
      (extract_dataset ['a', '.', 'b', '/', 'c']).bind (fun x => extract_filename x slash) =
        some ['a']) := by
  refine ⟨?_, by decide, by decide⟩
  intro p f delim hf hdot hv
  obtain ⟨n, e, hs, he⟩ := split_at_last_dot f hdot
  have hn_sub : ∀ x, x ∈ n → x ∈ f := by
    intro x hx
    rw [hs]
    exact List.mem_append_left _ (List.mem_append_left _ hx)
  have hfn : extract_dataset f = some n := by
    rw [hs]
    exact extract_dataset_split n e he
  rcases extract_filename_cases p delim hv with ⟨hp, hpp⟩ | ⟨d, f0, hps, hf0, hpf⟩
  · have hpf : p = f := Option.some.inj (hpp.symm.trans hf)
    subst hpf
    have hns : '/' ∉ n := fun h => hp (hn_sub _ h)
    have hnl : n.length < npos := by
      have : n.length ≤ p.length := by
        rw [hs]
        simp only [List.length_append]
        omega
      omega
    have hq : extract_filename n delim = some n := extract_filename_of_no_slash n delim hns hnl
    refine ⟨n, n, hfn, hfn, hq, ?_⟩
    rw [hf, hfn]
    exact hfn.trans hq.symm
  · have hff : f0 = f := Option.some.inj (hpf.symm.trans hf)
    subst hff
    have hns : '/' ∉ n := fun h => hf0 (hn_sub _ h)
    have hp2 : p = (d ++ slash ++ n) ++ dot ++ e := by
      rw [hps, hs]
      simp only [List.append_assoc]
    have hpd : extract_dataset p = some (d ++ slash ++ n) := by
      rw [hp2]
      exact extract_dataset_split (d ++ slash ++ n) e he
    have hql : (d ++ slash ++ n).length < npos := by
      have : (d ++ slash ++ n).length ≤ p.length := by
        rw [hp2]
        simp only [List.length_append]
        omega
      omega
    have hq : extract_filename (d ++ slash ++ n) delim = some n :=
      extract_filename_split d n delim hns hql
    refine ⟨n, d ++ slash ++ n, hfn, hpd, hq, ?_⟩
    rw [hf, hpd]
    exact hfn.trans hq.symm

theorem dataset_filename_commute_witness :
    ∃ n q, extract_dataset ['g', '.', 'c', 's', 'r'] = some n ∧
      extract_dataset ['d', '/', 'g', '.', 'c', 's', 'r'] = some q ∧
      extract_filename q slash = some n ∧
      (extract_filename ['d', '/', 'g', '.', 'c', 's', 'r'] slash).bind extract_dataset =
        (extract_dataset ['d', '/', 'g', '.', 'c', 's', 'r']).bind
          (fun x => extract_filename x slash) :=
  dataset_filename_commute.1 ['d', '/', 'g', '.', 'c', 's', 'r'] ['g', '.', 'c', 's', 'r'] slash
    (by decide) (by decide) (by decide)

/-- A path whose last `.` is in the directory and on which the two orders still agree:
on `c.d/c` both return `c`. -/
theorem dataset_filename_agree_dir_dot :
    (extract_filename ['c', '.', 'd', '/', 'c'] slash).bind extract_dataset = some ['c'] ∧
      (extract_dataset ['c', '.', 'd', '/', 'c']).bind (fun x => extract_filename x slash) =
        some ['c'] := by
  decide

end loops
